import Mathlib

/-! Verification of `snowballword`.

A shallow embedding of `src/snowballword/snowballword.go` and theorems about it.

Modelling conventions.

* A Go `string` is an immutable sequence of bytes: `GoString := List Byte`.
  `len(s)` of a string is its number of BYTES.
* A Go `rune` is an `int32`; it is modelled as an `Int`.  `[]rune` is `List Rune`,
  `len` of such a slice is its number of elements.
* Go `int` values (the region starts, slice indices) are modelled as `Int`; the
  values that occur are lengths and differences of lengths, so 64-bit overflow
  does not arise.
* A run-time panic (index or slice bound out of range) is modelled by `none`.
* The methods mutate their receiver; the embedding passes the word explicitly
  and returns the new word together with the Go return value.
* The conversions `[]rune(s)`, `string(rs)` and `for i, r := range s` are Go
  language primitives; they are modelled after the Go language specification
  (UTF-8 decoding, with the replacement character `U+FFFD` and an advance of a
  single byte on an invalid encoding).
-/

namespace Snowballword

/-! ## Go primitives: bytes, runes, UTF-8 -/

/-- A Go `byte`. -/
abbrev Byte := Fin 256

/-- A Go `string`: a sequence of bytes. -/
abbrev GoString := List Byte

/-- A Go `rune` (`int32`). -/
abbrev Rune := Int

/-- The Unicode replacement character `U+FFFD` (`utf8.RuneError`). -/
def runeError : Rune := 0xFFFD

/-- A UTF-8 continuation byte `10xxxxxx`. -/
def isCont (b : Byte) : Bool := 0x80 ≤ b.val && b.val ≤ 0xBF

/-- Decode the first UTF-8 encoded code point of a non-empty byte sequence:
the code point and the number of bytes it occupies.  An invalid encoding
(stray continuation byte, truncated or overlong sequence, surrogate, value
above `U+10FFFF`) yields `(U+FFFD, 1)`. -/
def decodeRune : List Byte → Rune × Nat
  | [] => (runeError, 1)
  | b0 :: rest =>
    if b0.val < 0x80 then ((b0.val : Int), 1)
    else if 0xC0 ≤ b0.val ∧ b0.val < 0xE0 then
      match rest with
      | b1 :: _ =>
        if isCont b1 then
          let r : Nat := (b0.val % 0x20) * 0x40 + b1.val % 0x40
          if 0x7F < r then ((r : Int), 2) else (runeError, 1)
        else (runeError, 1)
      | _ => (runeError, 1)
    else if 0xE0 ≤ b0.val ∧ b0.val < 0xF0 then
      match rest with
      | b1 :: b2 :: _ =>
        if isCont b1 && isCont b2 then
          let r : Nat := (b0.val % 0x10) * 0x1000 + (b1.val % 0x40) * 0x40 + b2.val % 0x40
          if 0x7FF < r ∧ ¬ (0xD800 ≤ r ∧ r ≤ 0xDFFF) then ((r : Int), 3) else (runeError, 1)
        else (runeError, 1)
      | _ => (runeError, 1)
    else if 0xF0 ≤ b0.val ∧ b0.val < 0xF8 then
      match rest with
      | b1 :: b2 :: b3 :: _ =>
        if isCont b1 && isCont b2 && isCont b3 then
          let r : Nat := (b0.val % 0x08) * 0x40000 + (b1.val % 0x40) * 0x1000
                          + (b2.val % 0x40) * 0x40 + b3.val % 0x40
          if 0xFFFF < r ∧ r ≤ 0x10FFFF then ((r : Int), 4) else (runeError, 1)
        else (runeError, 1)
      | _ => (runeError, 1)
    else (runeError, 1)

/-- The iteration `for i, r := range s` from byte offset `pos`, with `skip`
bytes of the code point decoded last still to be passed over: the list of
pairs (byte offset of the code point, code point). -/
def rangeFrom : Nat → Nat → List Byte → List (Int × Rune)
  | _, _, [] => []
  | pos, skip + 1, _ :: bs => rangeFrom (pos + 1) skip bs
  | pos, 0, b :: bs =>
    ((pos : Int), (decodeRune (b :: bs)).1) ::
      rangeFrom (pos + 1) ((decodeRune (b :: bs)).2 - 1) bs

/-- The pairs produced by `for i, r := range s`. -/
def rangeString (s : GoString) : List (Int × Rune) := rangeFrom 0 0 s

/-- The conversion `[]rune(s)`. -/
def runes (s : GoString) : List Rune := (rangeString s).map Prod.snd

/-- The conversion `string(r)` of a single rune: its UTF-8 encoding, that of
`U+FFFD` when `r` is not a valid code point. -/
def encodeRune (r : Rune) : List Byte :=
  if r < 0 ∨ 0x10FFFF < r ∨ (0xD800 ≤ r ∧ r ≤ 0xDFFF) then [0xEF, 0xBF, 0xBD]
  else
    let n := r.toNat
    if n ≤ 0x7F then [Fin.ofNat n]
    else if n ≤ 0x7FF then [Fin.ofNat (0xC0 + n / 0x40), Fin.ofNat (0x80 + n % 0x40)]
    else if n ≤ 0xFFFF then
      [Fin.ofNat (0xE0 + n / 0x1000), Fin.ofNat (0x80 + n / 0x40 % 0x40),
       Fin.ofNat (0x80 + n % 0x40)]
    else
      [Fin.ofNat (0xF0 + n / 0x40000), Fin.ofNat (0x80 + n / 0x1000 % 0x40),
       Fin.ofNat (0x80 + n / 0x40 % 0x40), Fin.ofNat (0x80 + n % 0x40)]

/-- The conversion `string(rs)` of a rune slice. -/
def stringOfRunes (rs : List Rune) : GoString := rs.flatMap encodeRune

/-- The Go string with the UTF-8 bytes of a text literal. -/
def lit (s : String) : GoString := (s.data.flatMap String.utf8EncodeChar).map (fun b => b.val)

/-- Indexing `xs[i]` of a slice: a panic when `i` is out of range. -/
def index (xs : List Rune) (i : Int) : Option Rune :=
  if 0 ≤ i then xs[i.toNat]? else none

/-- The slice expression `xs[:n]` for `n ≤ len(xs)`: a panic when `n` is
negative (or exceeds the length). -/
def sliceTo (xs : List Rune) (n : Int) : Option (List Rune) :=
  if 0 ≤ n ∧ n ≤ xs.length then some (xs.take n.toNat) else none

/-- The slice expression `xs[n:]`: a panic when `n` is negative or exceeds the
length. -/
def sliceFrom (xs : List Rune) (n : Int) : Option (List Rune) :=
  if 0 ≤ n ∧ n ≤ xs.length then some (xs.drop n.toNat) else none

/-- The slice expression `xs[lo:hi]` for `hi ≤ len(xs)`: a panic when `lo` is
negative or `hi < lo` (or `hi` exceeds the length). -/
def sliceRange (xs : List Rune) (lo hi : Int) : Option (List Rune) :=
  if 0 ≤ lo ∧ lo ≤ hi ∧ hi ≤ xs.length then some ((xs.take hi.toNat).drop lo.toNat) else none

/-! ## The word -/

/-- The struct `SnowballWord`: the runes of the word and the indices in `RS`
where the regions R1 and R2 begin. -/
structure SnowballWord where
  RS : List Rune
  R1start : Int
  R2start : Int
  deriving DecidableEq, Repr

/-- Constructor `New(in)`: the runes of `in`, both regions starting at the end. -/
def New (s : GoString) : SnowballWord :=
  let rs := runes s
  { RS := rs, R1start := rs.length, R2start := rs.length }

/-- Method `w.resetR1R2()`: a region start beyond the length of the rune slice is set
to that length. -/
def resetR1R2 (w : SnowballWord) : SnowballWord :=
  let rsLen : Int := w.RS.length
  let w1 := if w.R1start > rsLen then { w with R1start := rsLen } else w
  if w1.R2start > rsLen then { w1 with R2start := rsLen } else w1

/-- Method `w.slice(start, stop)`: `start` is raised to 0 and lowered to
`len(RS) - 1`, `stop` is lowered to `len(RS) - 1`, and `RS[start:stop]` is
returned. -/
def slice (w : SnowballWord) (start stop : Int) : Option (List Rune) :=
  let startMin : Int := 0
  let start := if start < startMin then startMin else start
  let max : Int := (w.RS.length : Int) - 1
  let start := if start > max then max else start
  let stop := if stop > max then max else stop
  sliceRange w.RS start stop

/-- Method `w.R1()`, the slice `w.RS[w.R1start:]`. -/
def R1 (w : SnowballWord) : Option (List Rune) := sliceFrom w.RS w.R1start

/-- Method `w.R1String()`, the string of the runes of `w.R1()`. -/
def R1String (w : SnowballWord) : Option GoString := (R1 w).map stringOfRunes

/-- Method `w.R2()`, the slice `w.RS[w.R2start:]`. -/
def R2 (w : SnowballWord) : Option (List Rune) := sliceFrom w.RS w.R2start

/-- Method `w.R2String()`, the string of the runes of `w.R2()`. -/
def R2String (w : SnowballWord) : Option GoString := (R2 w).map stringOfRunes

/-- Method `w.String()`, the string of the runes of the word. -/
def String (w : SnowballWord) : GoString := stringOfRunes w.RS

/-- The inner loop of `FirstPrefix` over the remaining (offset, rune) pairs of
`range prefix`; the result is the final value of `found`.  The test
`i > rsLen-1` comes first and short-circuits the indexing. -/
def prefixLoop (RS : List Rune) (rsLen : Int) : List (Int × Rune) → Option Bool
  | [] => some true
  | (i, r) :: rest =>
    if i > rsLen - 1 then some false
    else
      match index RS i with
      | none => none
      | some c => if c ≠ r then some false else prefixLoop RS rsLen rest

/-- The outer loop of `FirstPrefix` over the remaining candidates. -/
def firstPrefixLoop (RS : List Rune) (rsLen : Int) : List GoString → Option GoString
  | [] => some []
  | pre :: rest =>
    match prefixLoop RS rsLen (rangeString pre) with
    | none => none
    | some found => if found then some pre else firstPrefixLoop RS rsLen rest

/-- Method `w.FirstPrefix(prefixes...)`; the empty string is `[]`, a panic is `none`. -/
def FirstPrefix (w : SnowballWord) (prefixes : List GoString) : Option GoString :=
  firstPrefixLoop w.RS w.RS.length prefixes

/-- The inner loop of `FirstSuffix`, `for i := 0; i < rsLen && i < suffixLen; i++`,
entered with the current `i` and `numMatching`; the result is the final
`numMatching`.  The first argument bounds the number of iterations still to
run; `FirstSuffix` passes `len(RS)`, which the loop condition never lets it
reach. -/
def suffixLoop (RS suffixRunes : List Rune) (rsLen suffixLen : Int) :
    Nat → Int → Int → Option Int
  | 0, _, numMatching => some numMatching
  | n + 1, i, numMatching =>
    if i < rsLen ∧ i < suffixLen then
      match index RS (rsLen - i - 1), index suffixRunes (suffixLen - i - 1) with
      | some a, some b =>
        if a ≠ b then some numMatching
        else suffixLoop RS suffixRunes rsLen suffixLen n (i + 1) (numMatching + 1)
      | _, _ => none
    else some numMatching

/-- The outer loop of `FirstSuffix` over the remaining candidates. -/
def firstSuffixLoop (RS : List Rune) (rsLen : Int) : List GoString → Option GoString
  | [] => some []
  | suffix :: rest =>
    let suffixRunes := runes suffix
    let suffixLen : Int := suffixRunes.length
    match suffixLoop RS suffixRunes rsLen suffixLen RS.length 0 0 with
    | none => none
    | some numMatching =>
      if numMatching = suffixLen then some suffix else firstSuffixLoop RS rsLen rest

/-- Method `w.FirstSuffix(sufficies...)`; the empty string is `[]`, a panic is `none`. -/
def FirstSuffix (w : SnowballWord) (sufficies : List GoString) : Option GoString :=
  firstSuffixLoop w.RS w.RS.length sufficies

/-- The body of the `if` of `ReplaceSuffix`: `len(suffix)` is the length of the
string `suffix` in bytes. -/
def replaceBody (w : SnowballWord) (suffix replacement : GoString) :
    Option (Bool × SnowballWord) :=
  let lenWithoutSuffix : Int := (w.RS.length : Int) - (suffix.length : Int)
  match sliceTo w.RS lenWithoutSuffix with
  | none => none
  | some front => some (true, resetR1R2 { w with RS := front ++ runes replacement })

/-- Method `w.ReplaceSuffix(suffix, replacement, force)`: the return value and the
word after the call; `none` is a panic.  With `force` set, `FirstSuffix` is
not called. -/
def ReplaceSuffix (w : SnowballWord) (suffix replacement : GoString) (force : Bool) :
    Option (Bool × SnowballWord) :=
  if force then replaceBody w suffix replacement
  else
    match FirstSuffix w [suffix] with
    | none => none
    | some found =>
      if suffix = found then replaceBody w suffix replacement else some (false, w)

/-! ## Specification-side notions -/

/-- The matching condition of suffix matching in the words of the
specification: the candidate has no more code points than the word and its
complete code-point sequence equals the last `len(candidate)` code points of
the word. -/
def matchesTail (RS c : List Rune) : Bool :=
  decide (c.length ≤ RS.length ∧ RS.drop (RS.length - c.length) = c)

/-- The region invariant: both region starts lie in `[0, len(RS)]`. -/
def InBounds (w : SnowballWord) : Prop :=
  0 ≤ w.R1start ∧ w.R1start ≤ w.RS.length ∧ 0 ≤ w.R2start ∧ w.R2start ≤ w.RS.length

/-- Length of the longest common prefix of two rune sequences. -/
def commonPrefixLen : List Rune → List Rune → Nat
  | a :: as, b :: bs => if a = b then commonPrefixLen as bs + 1 else 0
  | _, _ => 0

/-- The matching condition of prefix matching in the words of the
specification: the candidate has no more code points than the word and its
code points equal the first `len(candidate)` code points of the word. -/
def matchesHead (RS c : List Rune) : Bool :=
  decide (c.length ≤ RS.length ∧ RS.take c.length = c)

/-- A string made only of single-byte (ASCII) code points: every byte is below
`0x80`. -/
def isASCII (s : GoString) : Bool := s.all (fun b => decide (b.val < 0x80))

/-- A Unicode scalar value: a code point in `[0, 0x10FFFF]` that is not a
surrogate. -/
def isScalar (r : Rune) : Bool :=
  decide (0 ≤ r ∧ r ≤ 0x10FFFF ∧ ¬ (0xD800 ≤ r ∧ r ≤ 0xDFFF))

/-- Well-formed UTF-8 text: the string is the UTF-8 encoding of a sequence of
Unicode scalar values. -/
def WellFormed (s : GoString) : Prop :=
  ∃ rs : List Rune, (∀ r ∈ rs, isScalar r = true) ∧ s = stringOfRunes rs


/-! ## Lemmas on the primitives -/

theorem matchesTail_iff (RS c : List Rune) : matchesTail RS c = true ↔ c <:+ RS := by
  unfold matchesTail
  rw [decide_eq_true_iff]
  constructor
  · rintro ⟨_, h⟩
    have := List.take_append_drop (RS.length - c.length) RS
    rw [h] at this
    exact ⟨_, this⟩
  · rintro ⟨t, rfl⟩
    refine ⟨by simp, ?_⟩
    simp

theorem index_reverse (xs : List Rune) (i : Nat) (h : i < xs.length) :
    index xs ((xs.length : Int) - (i : Int) - 1) = xs.reverse[i]? := by
  unfold index
  have h0 : (0 : Int) ≤ (xs.length : Int) - (i : Int) - 1 := by omega
  have h1 : ((xs.length : Int) - (i : Int) - 1).toNat = xs.length - 1 - i := by omega
  rw [if_pos h0, h1, List.getElem?_reverse h]

theorem commonPrefixLen_eq_length (a b : List Rune) :
    commonPrefixLen a b = b.length ↔ b <+: a := by
  induction a generalizing b with
  | nil =>
    cases b with
    | nil => simp [commonPrefixLen]
    | cons y ys => simp [commonPrefixLen]
  | cons x xs ih =>
    cases b with
    | nil => simp [commonPrefixLen]
    | cons y ys =>
      by_cases hxy : x = y
      · subst hxy
        simp [commonPrefixLen, ih, List.cons_prefix_cons]
      · have hyx : ¬ y = x := fun h => hxy h.symm
        simp [commonPrefixLen, hxy, hyx, List.cons_prefix_cons]

theorem suffixLoop_eq (RS sr : List Rune) :
    ∀ (fuel i : Nat), min RS.length sr.length ≤ fuel + i →
      suffixLoop RS sr RS.length sr.length fuel i i
        = some ((i + commonPrefixLen (RS.reverse.drop i) (sr.reverse.drop i) : Nat) : Int) := by
  intro fuel
  induction fuel with
  | zero =>
    intro i h
    have hz : commonPrefixLen (RS.reverse.drop i) (sr.reverse.drop i) = 0 := by
      rcases Nat.le_total RS.length sr.length with hle | hle
      · have : RS.reverse.drop i = [] := by
          apply List.drop_eq_nil_of_le; simp; omega
        rw [this]; cases (sr.reverse.drop i) <;> rfl
      · have : sr.reverse.drop i = [] := by
          apply List.drop_eq_nil_of_le; simp; omega
        rw [this]; cases (RS.reverse.drop i) <;> rfl
    simp [suffixLoop, hz]
  | succ n ih =>
    intro i h
    unfold suffixLoop
    by_cases hc : (i : Int) < (RS.length : Int) ∧ (i : Int) < (sr.length : Int)
    · have h1 : i < RS.length := by omega
      have h2 : i < sr.length := by omega
      rw [if_pos hc, index_reverse RS i h1, index_reverse sr i h2]
      obtain ⟨a, ha, ea⟩ : ∃ a, RS.reverse[i]? = some a ∧
          RS.reverse.drop i = a :: RS.reverse.drop (i + 1) :=
        ⟨_, List.getElem?_eq_getElem (by simpa using h1),
          List.drop_eq_getElem_cons (by simpa using h1)⟩
      obtain ⟨b, hb, eb⟩ : ∃ b, sr.reverse[i]? = some b ∧
          sr.reverse.drop i = b :: sr.reverse.drop (i + 1) :=
        ⟨_, List.getElem?_eq_getElem (by simpa using h2),
          List.drop_eq_getElem_cons (by simpa using h2)⟩
      rw [ha, hb, ea, eb]
      simp only [commonPrefixLen]
      by_cases hab : a = b
      · have := ih (i + 1) (by omega)
        simp only [hab, ne_eq, not_true_eq_false, if_false, if_true]
        push_cast at this ⊢
        rw [this]
        congr 1
        omega
      · simp [hab]
    · rw [if_neg hc]
      have hz : commonPrefixLen (RS.reverse.drop i) (sr.reverse.drop i) = 0 := by
        by_cases h1 : i < RS.length
        · have h2 : sr.length ≤ i := by omega
          have : sr.reverse.drop i = [] := by
            apply List.drop_eq_nil_of_le; simp; omega
          rw [this]; cases (RS.reverse.drop i) <;> rfl
        · have : RS.reverse.drop i = [] := by
            apply List.drop_eq_nil_of_le; simp; omega
          rw [this]; cases (sr.reverse.drop i) <;> rfl
      simp [hz]

theorem suffixLoop_full (RS sr : List Rune) :
    ∃ m : Int, suffixLoop RS sr RS.length sr.length RS.length 0 0 = some m ∧
      (m = (sr.length : Int) ↔ matchesTail RS sr = true) := by
  have h := suffixLoop_eq RS sr RS.length 0 (by omega)
  simp only [Nat.cast_zero, List.drop_zero, Nat.zero_add] at h
  refine ⟨_, h, ?_⟩
  rw [matchesTail_iff, ← List.reverse_prefix, ← commonPrefixLen_eq_length, List.length_reverse]
  exact Int.ofNat_inj

theorem firstSuffixLoop_eq (RS : List Rune) (cands : List GoString) :
    firstSuffixLoop RS RS.length cands
      = some ((cands.find? (fun c => matchesTail RS (runes c))).getD []) := by
  induction cands with
  | nil => rfl
  | cons c rest ih =>
    obtain ⟨m, hm, hiff⟩ := suffixLoop_full RS (runes c)
    simp only [firstSuffixLoop, hm, List.find?_cons]
    by_cases hmt : matchesTail RS (runes c) = true
    · rw [if_pos (hiff.mpr hmt), hmt]
      rfl
    · rw [if_neg (fun h => hmt (hiff.mp h)), ih]
      simp only [Bool.not_eq_true] at hmt
      rw [hmt]

theorem replaceBody_eq (w : SnowballWord) (suffix replacement : GoString) :
    replaceBody w suffix replacement =
      if suffix.length ≤ w.RS.length then
        some (true, resetR1R2
          { w with RS := w.RS.take (w.RS.length - suffix.length) ++ runes replacement })
      else none := by
  unfold replaceBody sliceTo
  by_cases h : suffix.length ≤ w.RS.length
  · have h0 : (0 : Int) ≤ (w.RS.length : Int) - (suffix.length : Int) ∧
        (w.RS.length : Int) - (suffix.length : Int) ≤ (w.RS.length : Int) := by omega
    have h1 : ((w.RS.length : Int) - (suffix.length : Int)).toNat
        = w.RS.length - suffix.length := by omega
    simp only [if_pos h0, if_pos h, h1]
  · have h0 : ¬ ((0 : Int) ≤ (w.RS.length : Int) - (suffix.length : Int) ∧
        (w.RS.length : Int) - (suffix.length : Int) ≤ (w.RS.length : Int)) := by omega
    simp only [if_neg h0, if_neg h]

theorem ReplaceSuffix_unforced (w : SnowballWord) (suffix replacement : GoString) :
    ReplaceSuffix w suffix replacement false =
      if matchesTail w.RS (runes suffix) = true then replaceBody w suffix replacement
      else some (false, w) := by
  unfold ReplaceSuffix FirstSuffix
  rw [firstSuffixLoop_eq]
  simp only [Bool.false_eq_true, if_false, List.find?_cons, List.find?_nil]
  by_cases hmt : matchesTail w.RS (runes suffix) = true
  · simp [hmt]
  · simp only [Bool.not_eq_true] at hmt
    simp only [hmt, Option.getD_none, Bool.false_eq_true, if_false]
    by_cases hs : suffix = []
    · subst hs
      have : matchesTail w.RS (runes []) = true :=
        (matchesTail_iff _ _).mpr List.nil_suffix
      rw [this] at hmt
      exact absurd hmt (by decide)
    · rw [if_neg hs]

theorem resetR1R2_RS (w : SnowballWord) : (resetR1R2 w).RS = w.RS := by
  simp only [resetR1R2]
  by_cases h1 : w.R1start > (w.RS.length : Int) <;>
    by_cases h2 : w.R2start > (w.RS.length : Int) <;> simp [h1, h2]

theorem resetR1R2_R1start (w : SnowballWord) :
    (resetR1R2 w).R1start = min w.R1start w.RS.length := by
  simp only [resetR1R2]
  by_cases h1 : w.R1start > (w.RS.length : Int) <;>
    by_cases h2 : w.R2start > (w.RS.length : Int) <;> simp [h1, h2] <;> omega

theorem resetR1R2_R2start (w : SnowballWord) :
    (resetR1R2 w).R2start = min w.R2start w.RS.length := by
  simp only [resetR1R2]
  by_cases h1 : w.R1start > (w.RS.length : Int) <;>
    by_cases h2 : w.R2start > (w.RS.length : Int) <;> simp [h1, h2] <;> omega

theorem rangeFrom_offset (bs : List Byte) :
    ∀ (pos skip j : Nat) (p : Int × Rune), (rangeFrom pos skip bs)[j]? = some p →
      (pos : Int) + (j : Int) ≤ p.1 := by
  induction bs with
  | nil => intro pos skip j p h; simp [rangeFrom] at h
  | cons b bs ih =>
    intro pos skip j p h
    cases skip with
    | succ k =>
      rw [rangeFrom] at h
      have := ih (pos + 1) k j p h
      push_cast at this
      omega
    | zero =>
      rw [rangeFrom] at h
      cases j with
      | zero =>
        simp only [List.getElem?_cons_zero, Option.some.injEq] at h
        subst h
        simp
      | succ j =>
        simp only [List.getElem?_cons_succ] at h
        have := ih (pos + 1) _ j p h
        push_cast at this ⊢
        omega

theorem prefixLoop_too_long (RS : List Rune) :
    ∀ (ps : List (Int × Rune)) (k : Nat), k ≤ RS.length →
      (∀ (j : Nat) (p : Int × Rune), ps[j]? = some p → (k : Int) + (j : Int) ≤ p.1) →
      RS.length < k + ps.length → prefixLoop RS RS.length ps = some false := by
  intro ps
  induction ps with
  | nil => intro k hk _ hlen; simp at hlen; omega
  | cons q rest ih =>
    intro k hk hoff hlen
    obtain ⟨i, r⟩ := q
    have hi : (k : Int) ≤ i := by simpa using hoff 0 (i, r) (by simp)
    unfold prefixLoop
    by_cases hgt : i > (RS.length : Int) - 1
    · rw [if_pos hgt]
    · rw [if_neg hgt]
      have h0 : (0 : Int) ≤ i := by omega
      have hlt : i.toNat < RS.length := by omega
      simp only [index, if_pos h0, List.getElem?_eq_getElem hlt]
      by_cases hc : RS[i.toNat] ≠ r
      · rw [if_pos hc]
      · rw [if_neg hc]
        apply ih (k + 1) (by omega)
        · intro j p hp
          have := hoff (j + 1) p (by simpa using hp)
          push_cast at this ⊢
          omega
        · simp only [List.length_cons] at hlen
          omega

theorem firstPrefixLoop_too_long (RS : List Rune) (cands : List GoString)
    (h : ∀ c ∈ cands, RS.length < (runes c).length) :
    firstPrefixLoop RS RS.length cands = some [] := by
  induction cands with
  | nil => rfl
  | cons c rest ih =>
    have hc : RS.length < (rangeString c).length := by
      simpa [runes] using h c (List.mem_cons_self _ _)
    have hp : prefixLoop RS RS.length (rangeString c) = some false :=
      prefixLoop_too_long RS (rangeString c) 0 (Nat.zero_le _)
        (fun j p hp => by simpa using rangeFrom_offset c 0 0 j p hp) (by omega)
    simp only [firstPrefixLoop, hp]
    exact ih (fun d hd => h d (List.mem_cons_of_mem _ hd))

theorem matchesTail_too_long (RS c : List Rune) (h : RS.length < c.length) :
    matchesTail RS c = false := by
  unfold matchesTail
  rw [decide_eq_false_iff_not]
  rintro ⟨h1, _⟩
  omega

theorem replaceBody_some (w w' : SnowballWord) (suffix r : GoString) (b : Bool)
    (h : replaceBody w suffix r = some (b, w')) :
    b = true ∧ suffix.length ≤ w.RS.length ∧
      w' = resetR1R2 { w with RS := w.RS.take (w.RS.length - suffix.length) ++ runes r } := by
  rw [replaceBody_eq] at h
  by_cases hl : suffix.length ≤ w.RS.length
  · rw [if_pos hl] at h
    simp only [Option.some.injEq, Prod.mk.injEq] at h
    exact ⟨h.1.symm, hl, h.2.symm⟩
  · rw [if_neg hl] at h
    exact absurd h (by simp)

theorem ReplaceSuffix_some (w w' : SnowballWord) (suffix r : GoString) (force b : Bool)
    (h : ReplaceSuffix w suffix r force = some (b, w')) :
    (b = false ∧ w' = w) ∨ (b = true ∧ replaceBody w suffix r = some (true, w')) := by
  cases force with
  | true =>
    have hb : replaceBody w suffix r = some (b, w') := by simpa [ReplaceSuffix] using h
    obtain ⟨rfl, _, _⟩ := replaceBody_some w w' suffix r b hb
    exact Or.inr ⟨rfl, hb⟩
  | false =>
    rw [ReplaceSuffix_unforced] at h
    by_cases hm : matchesTail w.RS (runes suffix) = true
    · rw [if_pos hm] at h
      obtain ⟨rfl, _, _⟩ := replaceBody_some w w' suffix r b h
      exact Or.inr ⟨rfl, h⟩
    · rw [if_neg hm] at h
      simp only [Option.some.injEq, Prod.mk.injEq] at h
      exact Or.inl ⟨h.1.symm, h.2.symm⟩

theorem sliceFrom_length (xs : List Rune) : sliceFrom xs (xs.length : Int) = some [] := by
  unfold sliceFrom
  rw [if_pos ⟨by omega, le_refl _⟩]
  simp

/-! ## Suffix replacement -/

/-- C1: the word "café" ends in the suffix "é" code point by code point, and
`New("café").ReplaceSuffix("é", "", false)` returns true, yet `String()` is then
"ca" and not "caf": the suffix is one code point long but `len(suffix)` is 2,
its length in bytes, so two code points are cut off.  On the ASCII scenario
`New("running").ReplaceSuffix("ing", "", false)` the result is true and "runn". -/
theorem ReplaceSuffix_unforced_two_byte_suffix :
    runes (lit "é") <:+ (New (lit "café")).RS ∧
    (runes (lit "é")).length = 1 ∧ (lit "é").length = 2 ∧
    (ReplaceSuffix (New (lit "café")) (lit "é") (lit "") false).map
        (fun p => (p.1, String p.2)) = some (true, lit "ca") ∧
    lit "ca" ≠ lit "caf" ∧
    (ReplaceSuffix (New (lit "running")) (lit "ing") (lit "") false).map
        (fun p => (p.1, String p.2)) = some (true, lit "runn") := by
  refine ⟨(matchesTail_iff _ _).mp (by decide), by decide, by decide, by decide, by decide,
    by decide⟩

/-- C2: when the runes of the word do not end in the runes of the suffix,
`ReplaceSuffix(c, r, false)` returns false without a panic and the word after
the call is the word before it: `RS` (hence `String()`), `R1start` and
`R2start` are unchanged. -/
theorem ReplaceSuffix_absent (w : SnowballWord) (c r : GoString)
    (h : ¬ runes c <:+ w.RS) :
    ReplaceSuffix w c r false = some (false, w) := by
  rw [ReplaceSuffix_unforced, if_neg (fun hm => h ((matchesTail_iff _ _).mp hm))]

theorem ReplaceSuffix_absent_witness :
    ReplaceSuffix (New (lit "cat")) (lit "ing") (lit "") false = some (false, New (lit "cat")) ∧
    String (New (lit "cat")) = lit "cat" :=
  ⟨ReplaceSuffix_absent (New (lit "cat")) (lit "ing") (lit "")
      (fun hs => absurd ((matchesTail_iff _ _).mpr hs) (by decide)),
    by decide⟩

/-! ## Suffix and prefix matching -/

/-- C3: `FirstSuffix` returns, without a panic, the first candidate in the
order given whose complete rune sequence equals the last `len(candidate)` runes
of the word (a candidate with more runes than the word does not match), and the
empty string when there is no such candidate; and
`New("running").FirstSuffix("ing", "ed")` is "ing". -/
theorem FirstSuffix_first_match :
    (∀ (w : SnowballWord) (cands : List GoString),
      FirstSuffix w cands
        = some ((cands.find? (fun c => matchesTail w.RS (runes c))).getD [])) ∧
    FirstSuffix (New (lit "running")) [lit "ing", lit "ed"] = some (lit "ing") :=
  ⟨fun w cands => firstSuffixLoop_eq w.RS cands, by decide⟩

/-- C4: the candidate "éa" has exactly the code points of the word "éa", yet
`New("éa").FirstPrefix("éa")` is the empty string; and the word "éab" does not
start with the code points of "éb", yet `New("éab").FirstPrefix("éb")` is "éb".
The index `i` of `range prefix` is a byte offset, and it is used as an index
into the runes of the word. -/
theorem FirstPrefix_two_byte_candidate :
    runes (lit "éa") <+: (New (lit "éa")).RS ∧
    FirstPrefix (New (lit "éa")) [lit "éa"] = some [] ∧
    ¬ runes (lit "éb") <+: (New (lit "éab")).RS ∧
    FirstPrefix (New (lit "éab")) [lit "éb"] = some (lit "éb") ∧
    rangeString (lit "éa") = [(0, 0xE9), (2, 0x61)] := by
  refine ⟨by decide, by decide, by decide, by decide, by decide⟩

/-- C5: the suffix "é" has one code point and the word "é" has one code point,
yet `New("é").ReplaceSuffix("é", "", force)` panics for both values of `force`:
`len(RS) - len(suffix)` is `1 - 2`, the byte length of the suffix being 2. -/
theorem ReplaceSuffix_panics_within_precondition :
    (runes (lit "é")).length ≤ (New (lit "é")).RS.length ∧
    ReplaceSuffix (New (lit "é")) (lit "é") (lit "") true = none ∧
    ReplaceSuffix (New (lit "é")) (lit "é") (lit "") false = none := by
  refine ⟨by decide, by decide, by decide⟩

/-- C6: the suffix "ïve" has 3 code points, the word "naïve" has 5 and the
replacement "if" has 2, yet after `New("naïve").ReplaceSuffix("ïve", "if", true)`
the runes are those of "nif", not of "naif": 4 runes were removed, the byte
length of the suffix, and the length changed by `2 - 4`, not by `2 - 3`. -/
theorem ReplaceSuffix_forced_two_byte_suffix :
    (runes (lit "ïve")).length = 3 ∧ (New (lit "naïve")).RS.length = 5 ∧
    (runes (lit "if")).length = 2 ∧
    (ReplaceSuffix (New (lit "naïve")) (lit "ïve") (lit "if") true).map
        (fun p => (p.1, p.2.RS)) = some (true, runes (lit "nif")) ∧
    (New (lit "naïve")).RS.take (5 - 3) ++ runes (lit "if") = runes (lit "naif") ∧
    runes (lit "nif") ≠ runes (lit "naif") := by
  refine ⟨by decide, by decide, by decide, by decide, by decide, by decide⟩

/-! ## The region starts -/

/-- C7: the region invariant `0 ≤ R1start ≤ len(RS)` and `0 ≤ R2start ≤ len(RS)`
holds of `New(s)` for every `s`, and every `ReplaceSuffix` call that does not
panic, forced or not and whatever it returns, takes a word satisfying the
invariant to a word satisfying it. -/
theorem InBounds_invariant :
    (∀ s : GoString, InBounds (New s)) ∧
    (∀ (w w' : SnowballWord) (suffix r : GoString) (force b : Bool),
      InBounds w → ReplaceSuffix w suffix r force = some (b, w') → InBounds w') := by
  constructor
  · intro s
    simp [InBounds, New]
  · intro w w' suffix r force b hw h
    rcases ReplaceSuffix_some w w' suffix r force b h with ⟨_, rfl⟩ | ⟨_, hb⟩
    · exact hw
    · obtain ⟨_, _, rfl⟩ := replaceBody_some w w' suffix r true hb
      obtain ⟨h1, _, h2, _⟩ := hw
      refine ⟨?_, ?_, ?_, ?_⟩
      · rw [resetR1R2_R1start]; exact le_min h1 (Int.ofNat_nonneg _)
      · rw [resetR1R2_R1start, resetR1R2_RS]; exact min_le_right _ _
      · rw [resetR1R2_R2start]; exact le_min h2 (Int.ofNat_nonneg _)
      · rw [resetR1R2_R2start, resetR1R2_RS]; exact min_le_right _ _

theorem InBounds_invariant_witness :
    InBounds ⟨runes (lit "running"), 5, 6⟩ ∧
    ReplaceSuffix ⟨runes (lit "running"), 5, 6⟩ (lit "ing") (lit "") false
      = some (true, ⟨runes (lit "runn"), 4, 4⟩) ∧
    InBounds ⟨runes (lit "runn"), 4, 4⟩ :=
  ⟨by simp [InBounds]; decide, by decide,
    InBounds_invariant.2 ⟨runes (lit "running"), 5, 6⟩ ⟨runes (lit "runn"), 4, 4⟩
      (lit "ing") (lit "") false true (by simp [InBounds]; decide) (by decide)⟩

/-- C8: after a `ReplaceSuffix` call that returns true, whatever the region
starts were, the new `R1start` is the minimum of the old `R1start` and the new
`len(RS)`, and likewise `R2start`; a start that does not exceed the new length
is left as it was. -/
theorem ReplaceSuffix_clamps (w w' : SnowballWord) (suffix r : GoString) (force : Bool)
    (h : ReplaceSuffix w suffix r force = some (true, w')) :
    w'.R1start = min w.R1start (w'.RS.length : Int) ∧
    w'.R2start = min w.R2start (w'.RS.length : Int) ∧
    (w.R1start ≤ (w'.RS.length : Int) → w'.R1start = w.R1start) ∧
    (w.R2start ≤ (w'.RS.length : Int) → w'.R2start = w.R2start) := by
  rcases ReplaceSuffix_some w w' suffix r force true h with ⟨hb, _⟩ | ⟨_, hb⟩
  · exact absurd hb (by decide)
  · obtain ⟨_, _, rfl⟩ := replaceBody_some w w' suffix r true hb
    have e1 := resetR1R2_R1start
      { w with RS := w.RS.take (w.RS.length - suffix.length) ++ runes r }
    have e2 := resetR1R2_R2start
      { w with RS := w.RS.take (w.RS.length - suffix.length) ++ runes r }
    rw [resetR1R2_RS]
    exact ⟨e1, e2, fun hle => by rw [e1]; exact min_eq_left hle,
      fun hle => by rw [e2]; exact min_eq_left hle⟩

theorem ReplaceSuffix_clamps_witness :
    (⟨runes (lit "running"), 5, 7⟩ : SnowballWord).RS.length = 7 ∧
    ReplaceSuffix ⟨runes (lit "running"), 5, 7⟩ (lit "ning") (lit "") false
      = some (true, ⟨runes (lit "run"), 3, 3⟩) ∧
    ((⟨runes (lit "run"), 3, 3⟩ : SnowballWord).RS.length = 3 ∧ (3 : Int) = min 5 3) :=
  ⟨by decide, by decide, by decide,
    (ReplaceSuffix_clamps ⟨runes (lit "running"), 5, 7⟩ ⟨runes (lit "run"), 3, 3⟩
      (lit "ning") (lit "") false (by decide)).1⟩

/-- C9: `FirstPrefix` and `FirstSuffix` return the empty string, without a
panic, when there are no candidates and when every candidate has more runes
than the word has, whatever the bytes of the candidates. -/
theorem FirstPrefix_FirstSuffix_too_long (w : SnowballWord) (cands : List GoString)
    (h : ∀ c ∈ cands, w.RS.length < (runes c).length) :
    FirstPrefix w cands = some [] ∧ FirstSuffix w cands = some [] ∧
    FirstPrefix w [] = some [] ∧ FirstSuffix w [] = some [] := by
  refine ⟨firstPrefixLoop_too_long w.RS cands h, ?_, rfl, rfl⟩
  unfold FirstSuffix
  rw [firstSuffixLoop_eq]
  have : cands.find? (fun c => matchesTail w.RS (runes c)) = none := by
    rw [List.find?_eq_none]
    intro c hc
    rw [matchesTail_too_long _ _ (h c hc)]
    decide
  rw [this]
  rfl

theorem FirstPrefix_FirstSuffix_too_long_witness :
    (FirstPrefix (New (lit "")) [lit "un"] = some (lit "") ∧
      FirstSuffix (New (lit "")) [lit "un"] = some (lit "")) ∧
    (FirstPrefix (New (lit "a")) [lit "éé", lit "日本"] = some (lit "") ∧
      FirstSuffix (New (lit "a")) [lit "éé", lit "日本"] = some (lit "")) :=
  ⟨⟨(FirstPrefix_FirstSuffix_too_long (New (lit "")) [lit "un"] (by decide)).1,
    (FirstPrefix_FirstSuffix_too_long (New (lit "")) [lit "un"] (by decide)).2.1⟩,
   ⟨(FirstPrefix_FirstSuffix_too_long (New (lit "a")) [lit "éé", lit "日本"] (by decide)).1,
    (FirstPrefix_FirstSuffix_too_long (New (lit "a")) [lit "éé", lit "日本"] (by decide)).2.1⟩⟩

/-- C10: for every string `s`, `New(s)` has `R1start` and `R2start` equal to the
number of runes of `s`; `R1()` and `R2()` do not panic and are empty, and
`R1String()` and `R2String()` are the empty string. -/
theorem New_regions_empty (s : GoString) :
    (New s).R1start = ((runes s).length : Int) ∧ (New s).R2start = ((runes s).length : Int) ∧
    R1 (New s) = some [] ∧ R2 (New s) = some [] ∧
    R1String (New s) = some [] ∧ R2String (New s) = some [] := by
  have h1 : R1 (New s) = some [] := sliceFrom_length (runes s)
  have h2 : R2 (New s) = some [] := sliceFrom_length (runes s)
  refine ⟨rfl, rfl, h1, h2, ?_, ?_⟩
  · rw [R1String, h1]; rfl
  · rw [R2String, h2]; rfl

/-! ## Region access -/

theorem sliceFrom_inBounds (xs : List Rune) (n : Int) (h0 : 0 ≤ n) (h1 : n ≤ xs.length) :
    sliceFrom xs n = some (xs.drop n.toNat) := by
  unfold sliceFrom
  rw [if_pos ⟨h0, h1⟩]

theorem drop_eq_nil_iff_start (xs : List Rune) (n : Int) (h0 : 0 ≤ n) (h1 : n ≤ xs.length) :
    xs.drop n.toNat = [] ↔ n = xs.length := by
  rw [List.drop_eq_nil_iff]
  omega

/-- C12: for a word whose region starts lie in `[0, len(RS)]`, `R1()` and `R2()`
do not panic and are the runes of `RS` from the stored start to the end:
`RS[:R1start] ++ R1() = RS`, `len(R1()) = len(RS) - R1start`, and `R1()` is
empty exactly when `R1start = len(RS)` (likewise for R2); `R1String()` and
`R2String()` are the strings of these rune sequences. -/
theorem R1_R2_live_suffix (w : SnowballWord) (h : InBounds w) :
    (R1 w = some (w.RS.drop w.R1start.toNat) ∧
      w.RS.take w.R1start.toNat ++ w.RS.drop w.R1start.toNat = w.RS ∧
      ((w.RS.drop w.R1start.toNat).length : Int) = (w.RS.length : Int) - w.R1start ∧
      (w.RS.drop w.R1start.toNat = [] ↔ w.R1start = (w.RS.length : Int)) ∧
      R1String w = some (stringOfRunes (w.RS.drop w.R1start.toNat))) ∧
    (R2 w = some (w.RS.drop w.R2start.toNat) ∧
      w.RS.take w.R2start.toNat ++ w.RS.drop w.R2start.toNat = w.RS ∧
      ((w.RS.drop w.R2start.toNat).length : Int) = (w.RS.length : Int) - w.R2start ∧
      (w.RS.drop w.R2start.toNat = [] ↔ w.R2start = (w.RS.length : Int)) ∧
      R2String w = some (stringOfRunes (w.RS.drop w.R2start.toNat))) := by
  obtain ⟨a0, a1, b0, b1⟩ := h
  have e1 : R1 w = some (w.RS.drop w.R1start.toNat) := sliceFrom_inBounds _ _ a0 a1
  have e2 : R2 w = some (w.RS.drop w.R2start.toNat) := sliceFrom_inBounds _ _ b0 b1
  refine ⟨⟨e1, List.take_append_drop _ _, ?_, drop_eq_nil_iff_start _ _ a0 a1, ?_⟩,
    ⟨e2, List.take_append_drop _ _, ?_, drop_eq_nil_iff_start _ _ b0 b1, ?_⟩⟩
  · rw [List.length_drop]; omega
  · rw [R1String, e1]; rfl
  · rw [List.length_drop]; omega
  · rw [R2String, e2]; rfl

theorem R1_R2_live_suffix_witness :
    R1 ⟨runes (lit "running"), 3, 7⟩ = some (runes (lit "ning")) ∧
    R2 ⟨runes (lit "running"), 3, 7⟩ = some [] ∧
    R1String ⟨runes (lit "running"), 3, 7⟩ = some (lit "ning") :=
  ⟨((R1_R2_live_suffix ⟨runes (lit "running"), 3, 7⟩
      (by simp [InBounds]; decide)).1.1).trans (by decide),
   ((R1_R2_live_suffix ⟨runes (lit "running"), 3, 7⟩
      (by simp [InBounds]; decide)).2.1).trans (by decide),
   ((R1_R2_live_suffix ⟨runes (lit "running"), 3, 7⟩
      (by simp [InBounds]; decide)).1.2.2.2.2).trans (by decide)⟩

/-! ## The number of runes removed -/

/-- C13: a `ReplaceSuffix` call that proceeds (`force` is set, or the runes of
the word end in the runes of the suffix) removes as many runes as the suffix
string has BYTES: when that byte length does not exceed `len(RS)` the call
returns true and `RS` becomes its first `len(RS) - len(suffix)` runes followed
by the runes of the replacement; when it exceeds `len(RS)` the call panics. -/
theorem ReplaceSuffix_removes_byte_length (w : SnowballWord) (suffix r : GoString)
    (force : Bool) (h : force = true ∨ runes suffix <:+ w.RS) :
    (suffix.length ≤ w.RS.length →
      ∃ w', ReplaceSuffix w suffix r force = some (true, w') ∧
        w'.RS = w.RS.take (w.RS.length - suffix.length) ++ runes r) ∧
    (w.RS.length < suffix.length → ReplaceSuffix w suffix r force = none) := by
  have hrun : ReplaceSuffix w suffix r force = replaceBody w suffix r := by
    cases force with
    | true => simp [ReplaceSuffix]
    | false =>
      have hs : runes suffix <:+ w.RS := by
        rcases h with h | h
        · exact absurd h (by decide)
        · exact h
      rw [ReplaceSuffix_unforced, if_pos ((matchesTail_iff _ _).mpr hs)]
  rw [hrun, replaceBody_eq]
  constructor
  · intro hle
    rw [if_pos hle]
    exact ⟨_, rfl, resetR1R2_RS _⟩
  · intro hlt
    rw [if_neg (by omega)]

theorem ReplaceSuffix_removes_byte_length_witness :
    (∃ w', ReplaceSuffix (New (lit "café")) (lit "é") (lit "") false = some (true, w') ∧
      w'.RS = (New (lit "café")).RS.take ((New (lit "café")).RS.length - (lit "é").length)
        ++ runes (lit "")) ∧
    ReplaceSuffix (New (lit "é")) (lit "é") (lit "") false = none :=
  ⟨(ReplaceSuffix_removes_byte_length (New (lit "café")) (lit "é") (lit "") false
      (Or.inr ((matchesTail_iff _ _).mp (by decide)))).1 (by decide),
   (ReplaceSuffix_removes_byte_length (New (lit "é")) (lit "é") (lit "") false
      (Or.inr ((matchesTail_iff _ _).mp (by decide)))).2 (by decide)⟩

/-! ## Nesting of the regions -/

/-- C15: a `ReplaceSuffix` call that does not panic, forced or not and whatever
it returns, takes a word with `R1start ≤ R2start` to a word with
`R1start ≤ R2start`; and whenever `R1()` and `R2()` of the resulting word are
defined, `R2()` is a suffix of `R1()`. -/
theorem ReplaceSuffix_keeps_nesting (w w' : SnowballWord) (suffix r : GoString)
    (force b : Bool) (hn : w.R1start ≤ w.R2start)
    (h : ReplaceSuffix w suffix r force = some (b, w')) :
    w'.R1start ≤ w'.R2start ∧
    (∀ a c : List Rune, R1 w' = some a → R2 w' = some c → c <:+ a) := by
  have hle : w'.R1start ≤ w'.R2start := by
    rcases ReplaceSuffix_some w w' suffix r force b h with ⟨_, rfl⟩ | ⟨_, hb⟩
    · exact hn
    · obtain ⟨_, _, rfl⟩ := replaceBody_some w w' suffix r true hb
      rw [resetR1R2_R1start, resetR1R2_R2start]
      exact min_le_min_right _ hn
  refine ⟨hle, ?_⟩
  intro a c ha hc
  unfold R1 sliceFrom at ha
  unfold R2 sliceFrom at hc
  split_ifs at ha hc with h1 h2
  simp only [Option.some.injEq] at ha hc
  subst ha hc
  have e : w'.R2start.toNat = w'.R1start.toNat + (w'.R2start.toNat - w'.R1start.toNat) := by
    omega
  rw [e, ← List.drop_drop]
  exact List.drop_suffix _ _

theorem ReplaceSuffix_keeps_nesting_witness :
    ((3 : Int) ≤ 4) ∧
    (∀ a c : List Rune, R1 ⟨runes (lit "runn"), 3, 4⟩ = some a →
      R2 ⟨runes (lit "runn"), 3, 4⟩ = some c → c <:+ a) :=
  ReplaceSuffix_keeps_nesting ⟨runes (lit "running"), 3, 6⟩ ⟨runes (lit "runn"), 3, 4⟩
    (lit "ing") (lit "") false true (by decide) (by decide)

/-! ## The bounded slice -/

/-- C17: `slice` panics on out-of-range arguments: with a negative `stop`
(`New("abc").slice(0, -1)` is `RS[0:-1]`), with `stop` below the clamped `start`
(`New("abc").slice(2, 1)` is `RS[2:1]`), and on the empty word whatever the
arguments (`New("").slice(0, 0)` is `RS[-1:-1]`, since `max` is `-1`).  Where it
does not panic it returns `RS[start':stop']`: `New("abc").slice(-4, 9)` is
`RS[0:2]`. -/
theorem slice_panics_out_of_range :
    slice (New (lit "abc")) 0 (-1) = none ∧
    slice (New (lit "abc")) 2 1 = none ∧
    slice (New (lit "")) 0 0 = none ∧
    slice (New (lit "abc")) (-4) 9 = some (runes (lit "ab")) := by
  refine ⟨by decide, by decide, by decide, by decide⟩


/-! ## Single-byte candidates -/

theorem matchesHead_iff (RS c : List Rune) : matchesHead RS c = true ↔ c <+: RS := by
  unfold matchesHead
  rw [decide_eq_true_iff, List.prefix_iff_eq_take]
  constructor
  · rintro ⟨_, h⟩
    exact h.symm
  · intro h
    refine ⟨?_, h.symm⟩
    have := congrArg List.length h
    rw [List.length_take] at this
    omega

theorem rangeFrom_ascii (s : GoString) (h : isASCII s = true) :
    ∀ pos : Nat, rangeFrom pos 0 s
      = (s.enumFrom pos).map (fun p => ((p.1 : Int), (p.2.val : Int))) := by
  induction s with
  | nil => intro pos; rfl
  | cons b bs ih =>
    intro pos
    simp only [isASCII, List.all_cons, Bool.and_eq_true, decide_eq_true_eq] at h
    have hb : b.val < 0x80 := h.1
    have hd : decodeRune (b :: bs) = ((b.val : Int), 1) := by
      simp only [decodeRune, if_pos hb]
    rw [rangeFrom, hd]
    simp only [List.enumFrom_cons, List.map_cons, Nat.sub_self]
    rw [ih (by simpa [isASCII] using h.2)]

theorem runes_ascii (s : GoString) (h : isASCII s = true) :
    runes s = s.map (fun b => (b.val : Int)) := by
  unfold runes rangeString
  rw [rangeFrom_ascii s h 0, List.map_map]
  generalize (0 : Nat) = k
  clear h
  induction s generalizing k with
  | nil => rfl
  | cons b bs ih =>
    simp only [List.enumFrom_cons, List.map_cons, Function.comp_apply]
    rw [ih]

theorem runes_ascii_length (s : GoString) (h : isASCII s = true) :
    (runes s).length = s.length := by
  rw [runes_ascii s h, List.length_map]

theorem rangeString_ascii (s : GoString) (h : isASCII s = true) :
    rangeString s = ((runes s).enumFrom 0).map (fun p => ((p.1 : Int), p.2)) := by
  rw [runes_ascii s h]
  unfold rangeString
  rw [rangeFrom_ascii s h 0]
  generalize (0 : Nat) = k
  induction s generalizing k with
  | nil => rfl
  | cons b bs ih =>
    simp only [isASCII, List.all_cons, Bool.and_eq_true] at h
    simp only [List.enumFrom_cons, List.map_cons]
    rw [ih (by simpa [isASCII] using h.2)]

theorem enumFrom_offset (rs : List Rune) :
    ∀ (k j : Nat) (p : Int × Rune),
      ((rs.enumFrom k).map (fun p => ((p.1 : Int), p.2)))[j]? = some p →
        p.1 = (k : Int) + (j : Int) := by
  induction rs with
  | nil => intro k j p h; simp at h
  | cons r rest ih =>
    intro k j p h
    cases j with
    | zero =>
      simp only [List.enumFrom_cons, List.map_cons, List.getElem?_cons_zero,
        Option.some.injEq] at h
      subst h
      simp
    | succ j =>
      simp only [List.enumFrom_cons, List.map_cons, List.getElem?_cons_succ] at h
      have := ih (k + 1) j p h
      push_cast at this ⊢
      omega

theorem prefixLoop_enum (RS : List Rune) :
    ∀ (ps : List Rune) (k : Nat),
      ∃ b : Bool, prefixLoop RS RS.length
          ((ps.enumFrom k).map (fun p => ((p.1 : Int), p.2))) = some b ∧
        (b = true ↔ ps <+: RS.drop k) := by
  intro ps
  induction ps with
  | nil => intro k; exact ⟨true, rfl, by simp⟩
  | cons r rest ih =>
    intro k
    simp only [List.enumFrom_cons, List.map_cons, prefixLoop]
    by_cases hgt : (k : Int) > (RS.length : Int) - 1
    · rw [if_pos hgt]
      refine ⟨false, rfl, ?_⟩
      have : RS.drop k = [] := List.drop_eq_nil_of_le (by omega)
      rw [this]
      simp
    · rw [if_neg hgt]
      have hlt : k < RS.length := by omega
      have h0 : (0 : Int) ≤ (k : Int) := by omega
      have hd : RS.drop k = RS[k] :: RS.drop (k + 1) := List.drop_eq_getElem_cons hlt
      simp only [index, if_pos h0, Int.toNat_ofNat, List.getElem?_eq_getElem hlt]
      rw [hd, List.cons_prefix_cons]
      by_cases hc : RS[k] = r
      · obtain ⟨b, hb, hiff⟩ := ih (k + 1)
        refine ⟨b, ?_, ?_⟩
        · simp only [hc, ne_eq, not_true_eq_false, if_false]
          exact hb
        · rw [hiff]
          exact ⟨fun h => ⟨hc.symm, h⟩, fun h => h.2⟩
      · refine ⟨false, ?_, ?_⟩
        · simp only [ne_eq, hc, not_false_eq_true, if_true]
        · constructor
          · intro h; exact absurd h (by decide)
          · intro h; exact absurd h.1.symm hc

theorem prefixLoop_ascii (RS : List Rune) (c : GoString) (h : isASCII c = true) :
    prefixLoop RS RS.length (rangeString c) = some (matchesHead RS (runes c)) := by
  obtain ⟨b, hb, hiff⟩ := prefixLoop_enum RS (runes c) 0
  rw [rangeString_ascii c h, hb]
  congr 1
  rw [List.drop_zero, ← matchesHead_iff] at hiff
  cases b <;> cases hm : matchesHead RS (runes c) <;> simp_all

theorem firstPrefixLoop_ascii (RS : List Rune) (cands : List GoString)
    (h : ∀ c ∈ cands, isASCII c = true) :
    firstPrefixLoop RS RS.length cands
      = some ((cands.find? (fun c => matchesHead RS (runes c))).getD []) := by
  induction cands with
  | nil => rfl
  | cons c rest ih =>
    have ih' := ih (fun d hd => h d (List.mem_cons_of_mem _ hd))
    simp only [firstPrefixLoop, prefixLoop_ascii RS c (h c (List.mem_cons_self _ _)),
      List.find?_cons]
    cases hm : matchesHead RS (runes c)
    · simpa using ih'
    · simp

/-- C14, as stated, fails in its closing clause: the byte offset that
`range prefix` yields does not coincide with the code-point index ONLY for
candidates of single-byte (ASCII) code points.  The candidates "aé" and "é" are
not ASCII, yet every offset equals the index of its code point (the multi-byte
code point comes last), and `FirstPrefix` matches them as prefixes of "aéb" and
"été". -/
theorem range_offsets_coincide_beyond_ascii :
    isASCII (lit "aé") = false ∧
    rangeString (lit "aé") = [(0, 0x61), (1, 0xE9)] ∧
    FirstPrefix (New (lit "aéb")) [lit "aé"] = some (lit "aé") ∧
    isASCII (lit "é") = false ∧
    rangeString (lit "é") = [(0, 0xE9)] ∧
    FirstPrefix (New (lit "été")) [lit "é"] = some (lit "é") ∧
    ¬ (∀ c : GoString,
        (∀ (j : Nat) (p : Int × Rune), (rangeString c)[j]? = some p → p.1 = (j : Int)) →
          isASCII c = true) := by
  have hr : rangeString (lit "aé") = [(0, 0x61), (1, 0xE9)] := by decide
  refine ⟨by decide, hr, by decide, by decide, by decide, by decide, ?_⟩
  intro hall
  have hasc : isASCII (lit "aé") = true := by
    apply hall
    intro j p hp
    rw [hr] at hp
    match j, hp with
    | 0, hp =>
      simp only [List.getElem?_cons_zero, Option.some.injEq] at hp
      subst hp
      rfl
    | 1, hp =>
      simp only [List.getElem?_cons_succ, List.getElem?_cons_zero, Option.some.injEq] at hp
      subst hp
      rfl
    | j + 2, hp =>
      simp at hp
  exact absurd hasc (by decide)

/-- C14, amended: when every candidate is made only of single-byte (ASCII) code
points, `FirstPrefix` returns, without a panic, the first candidate in the
order given whose runes are a prefix of the runes of the word, and the empty
string when there is none; under this restriction the byte offset that
`range prefix` yields for a code point is the index of that code point (the
restriction is sufficient for this, not necessary). -/
theorem FirstPrefix_ascii (w : SnowballWord) (cands : List GoString)
    (h : ∀ c ∈ cands, isASCII c = true) :
    FirstPrefix w cands
      = some ((cands.find? (fun c => matchesHead w.RS (runes c))).getD []) ∧
    (∀ c ∈ cands, ∀ (j : Nat) (p : Int × Rune),
      (rangeString c)[j]? = some p → p.1 = (j : Int)) := by
  refine ⟨firstPrefixLoop_ascii w.RS cands h, ?_⟩
  intro c hc j p hp
  rw [rangeString_ascii c (h c hc)] at hp
  simpa using enumFrom_offset (runes c) 0 j p hp

theorem FirstPrefix_ascii_witness :
    FirstPrefix (New (lit "unhappy")) [lit "in", lit "un", lit "u"] = some (lit "un") ∧
    FirstPrefix (New (lit "unhappy")) [lit "hap", lit "unhappily"] = some (lit "") ∧
    (rangeString (lit "éa"))[1]? = some (2, 0x61) :=
  ⟨((FirstPrefix_ascii (New (lit "unhappy")) [lit "in", lit "un", lit "u"]
      (by decide)).1).trans (by decide),
   ((FirstPrefix_ascii (New (lit "unhappy")) [lit "hap", lit "unhappily"]
      (by decide)).1).trans (by decide),
   by decide⟩


/-! ## Undoing a replacement -/

theorem ReplaceSuffix_present (w : SnowballWord) (c r : GoString) (t : List Rune)
    (hRS : w.RS = t ++ runes c) (hlen : c.length = (runes c).length) :
    ∃ w1, ReplaceSuffix w c r false = some (true, w1) ∧ w1.RS = t ++ runes r := by
  have hm : matchesTail w.RS (runes c) = true := (matchesTail_iff _ _).mpr ⟨t, hRS.symm⟩
  have hle : c.length ≤ w.RS.length := by rw [hRS, List.length_append]; omega
  rw [ReplaceSuffix_unforced, if_pos hm, replaceBody_eq, if_pos hle]
  refine ⟨_, rfl, ?_⟩
  rw [resetR1R2_RS]
  have : w.RS.length - c.length = t.length := by rw [hRS, List.length_append]; omega
  rw [this, hRS, List.take_left']
  rfl

/-- C16: for a word whose runes end in the runes of `c`, with `c` and `r` made
only of single-byte (ASCII) code points, `ReplaceSuffix(c, r, false)` returns
true; on the resulting word `FirstSuffix(r)` is `r`, and
`ReplaceSuffix(r, c, false)` returns true and leaves the runes of the word,
hence `String()`, as they were before the first call. -/
theorem ReplaceSuffix_undone (w : SnowballWord) (c r : GoString)
    (hc : isASCII c = true) (hr : isASCII r = true) (h : runes c <:+ w.RS) :
    ∃ w1 w2 : SnowballWord,
      ReplaceSuffix w c r false = some (true, w1) ∧
      FirstSuffix w1 [r] = some r ∧
      ReplaceSuffix w1 r c false = some (true, w2) ∧
      w2.RS = w.RS ∧ String w2 = String w := by
  obtain ⟨t, ht⟩ := h
  obtain ⟨w1, h1, e1⟩ :=
    ReplaceSuffix_present w c r t ht.symm (runes_ascii_length c hc).symm
  obtain ⟨w2, h2, e2⟩ :=
    ReplaceSuffix_present w1 r c t e1 (runes_ascii_length r hr).symm
  refine ⟨w1, w2, h1, ?_, h2, e2.trans ht, ?_⟩
  · unfold FirstSuffix
    rw [firstSuffixLoop_eq]
    have hm : matchesTail w1.RS (runes r) = true := (matchesTail_iff _ _).mpr ⟨t, e1.symm⟩
    simp [List.find?_cons, hm]
  · unfold String
    rw [e2.trans ht]

theorem ReplaceSuffix_undone_witness :
    ∃ w1 w2 : SnowballWord,
      ReplaceSuffix (New (lit "relational")) (lit "ational") (lit "ate") false
        = some (true, w1) ∧
      FirstSuffix w1 [lit "ate"] = some (lit "ate") ∧
      ReplaceSuffix w1 (lit "ate") (lit "ational") false = some (true, w2) ∧
      w2.RS = (New (lit "relational")).RS ∧ String w2 = String (New (lit "relational")) :=
  ReplaceSuffix_undone (New (lit "relational")) (lit "ational") (lit "ate")
    (by decide) (by decide) ((matchesTail_iff _ _).mp (by decide))


/-! ## Round trip through UTF-8 -/

theorem val_ofNat_byte (x : Nat) (h : x < 256) : ((Fin.ofNat x : Byte)).val = x := by
  simp only [Fin.ofNat]
  exact Nat.mod_eq_of_lt h

theorem isCont_ofNat (x : Nat) (h : x < 0x40) : isCont (Fin.ofNat (0x80 + x) : Byte) = true := by
  unfold isCont
  rw [val_ofNat_byte _ (by omega)]
  simp only [Bool.and_eq_true, decide_eq_true_eq]
  omega

theorem decodeRune_one (n : Nat) (h : n ≤ 0x7F) (rest : List Byte) :
    decodeRune ((Fin.ofNat n : Byte) :: rest) = ((n : Int), 1) := by
  have v0 := val_ofNat_byte n (by omega)
  simp only [decodeRune, v0]
  rw [if_pos (by omega)]

theorem decodeRune_two (n : Nat) (h1 : 0x7F < n) (h2 : n ≤ 0x7FF) (rest : List Byte) :
    decodeRune ((Fin.ofNat (0xC0 + n / 0x40) : Byte) :: Fin.ofNat (0x80 + n % 0x40) :: rest)
      = ((n : Int), 2) := by
  have v0 := val_ofNat_byte (0xC0 + n / 0x40) (by omega)
  have v1 := val_ofNat_byte (0x80 + n % 0x40) (by omega)
  have c1 := isCont_ofNat (n % 0x40) (by omega)
  simp only [decodeRune, v0, v1, c1, if_true]
  rw [if_neg (by omega), if_pos (by omega), if_pos (by omega)]
  congr 2
  omega

theorem decodeRune_three (n : Nat) (h1 : 0x7FF < n) (h2 : n ≤ 0xFFFF)
    (hs : ¬ (0xD800 ≤ n ∧ n ≤ 0xDFFF)) (rest : List Byte) :
    decodeRune ((Fin.ofNat (0xE0 + n / 0x1000) : Byte) :: Fin.ofNat (0x80 + n / 0x40 % 0x40)
        :: Fin.ofNat (0x80 + n % 0x40) :: rest)
      = ((n : Int), 3) := by
  have v0 := val_ofNat_byte (0xE0 + n / 0x1000) (by omega)
  have v1 := val_ofNat_byte (0x80 + n / 0x40 % 0x40) (by omega)
  have v2 := val_ofNat_byte (0x80 + n % 0x40) (by omega)
  have c1 := isCont_ofNat (n / 0x40 % 0x40) (by omega)
  have c2 := isCont_ofNat (n % 0x40) (by omega)
  have e : (0xE0 + n / 0x1000) % 0x10 * 0x1000 + (0x80 + n / 0x40 % 0x40) % 0x40 * 0x40
      + (0x80 + n % 0x40) % 0x40 = n := by omega
  simp only [decodeRune, v0, v1, v2, c1, c2, Bool.and_self, if_true, e]
  rw [if_neg (by omega), if_neg (by omega), if_pos (by omega), if_pos ⟨by omega, hs⟩]

theorem decodeRune_four (n : Nat) (h1 : 0xFFFF < n) (h2 : n ≤ 0x10FFFF) (rest : List Byte) :
    decodeRune ((Fin.ofNat (0xF0 + n / 0x40000) : Byte) :: Fin.ofNat (0x80 + n / 0x1000 % 0x40)
        :: Fin.ofNat (0x80 + n / 0x40 % 0x40) :: Fin.ofNat (0x80 + n % 0x40) :: rest)
      = ((n : Int), 4) := by
  have v0 := val_ofNat_byte (0xF0 + n / 0x40000) (by omega)
  have v1 := val_ofNat_byte (0x80 + n / 0x1000 % 0x40) (by omega)
  have v2 := val_ofNat_byte (0x80 + n / 0x40 % 0x40) (by omega)
  have v3 := val_ofNat_byte (0x80 + n % 0x40) (by omega)
  have c1 := isCont_ofNat (n / 0x1000 % 0x40) (by omega)
  have c2 := isCont_ofNat (n / 0x40 % 0x40) (by omega)
  have c3 := isCont_ofNat (n % 0x40) (by omega)
  have e : (0xF0 + n / 0x40000) % 0x08 * 0x40000 + (0x80 + n / 0x1000 % 0x40) % 0x40 * 0x1000
      + (0x80 + n / 0x40 % 0x40) % 0x40 * 0x40 + (0x80 + n % 0x40) % 0x40 = n := by omega
  simp only [decodeRune, v0, v1, v2, v3, c1, c2, c3, Bool.and_self, if_true, e]
  rw [if_neg (by omega), if_neg (by omega), if_neg (by omega), if_pos (by omega),
    if_pos (by omega)]


theorem isScalar_iff (r : Int) :
    isScalar r = true ↔ 0 ≤ r ∧ r ≤ 0x10FFFF ∧ ¬ (0xD800 ≤ r ∧ r ≤ 0xDFFF) := by
  unfold isScalar
  exact decide_eq_true_iff

theorem decodeRune_encodeRune (r : Rune) (h : isScalar r = true) (rest : List Byte) :
    decodeRune (encodeRune r ++ rest) = (r, (encodeRune r).length) := by
  obtain ⟨h0, h1, h2⟩ := (isScalar_iff r).mp h
  obtain ⟨n, rfl⟩ := Int.eq_ofNat_of_zero_le h0
  have hn1 : n ≤ 0x10FFFF := by omega
  have hn2 : ¬ (0xD800 ≤ n ∧ n ≤ 0xDFFF) := by omega
  have hif : ¬ ((n : Int) < 0 ∨ 0x10FFFF < (n : Int) ∨ (0xD800 ≤ (n : Int) ∧ (n : Int) ≤ 0xDFFF)) := by
    omega
  simp only [encodeRune, if_neg hif, Int.toNat_ofNat]
  by_cases c1 : n ≤ 0x7F
  · rw [if_pos c1]
    exact decodeRune_one n c1 rest
  · rw [if_neg c1]
    by_cases c2 : n ≤ 0x7FF
    · rw [if_pos c2]
      exact decodeRune_two n (by omega) c2 rest
    · rw [if_neg c2]
      by_cases c3 : n ≤ 0xFFFF
      · rw [if_pos c3]
        exact decodeRune_three n (by omega) c3 hn2 rest
      · rw [if_neg c3]
        exact decodeRune_four n (by omega) hn1 rest

theorem encodeRune_ne_nil (r : Rune) : encodeRune r ≠ [] := by
  simp only [encodeRune]
  split_ifs <;> simp

theorem rangeFrom_skip (xs rest : List Byte) :
    ∀ pos : Nat, rangeFrom pos xs.length (xs ++ rest) = rangeFrom (pos + xs.length) 0 rest := by
  induction xs with
  | nil => intro pos; rfl
  | cons x xs ih =>
    intro pos
    have := ih (pos + 1)
    rw [List.length_cons, List.cons_append, rangeFrom, this]
    congr 1
    omega

theorem rangeFrom_encodeRune (r : Rune) (h : isScalar r = true) (rest : List Byte) (pos : Nat) :
    rangeFrom pos 0 (encodeRune r ++ rest)
      = ((pos : Int), r) :: rangeFrom (pos + (encodeRune r).length) 0 rest := by
  have hd := decodeRune_encodeRune r h rest
  obtain ⟨b, tl, hbt⟩ : ∃ b tl, encodeRune r = b :: tl := by
    cases he : encodeRune r with
    | nil => exact absurd he (encodeRune_ne_nil r)
    | cons b tl => exact ⟨b, tl, rfl⟩
  rw [hbt] at hd ⊢
  simp only [List.cons_append, List.length_cons] at hd ⊢
  rw [rangeFrom, hd]
  simp only [Nat.add_sub_cancel]
  rw [rangeFrom_skip tl rest (pos + 1)]
  congr 2
  omega

theorem rangeFrom_stringOfRunes (rs : List Rune) (h : ∀ r ∈ rs, isScalar r = true) :
    ∀ pos : Nat, (rangeFrom pos 0 (stringOfRunes rs)).map Prod.snd = rs := by
  induction rs with
  | nil => intro pos; rfl
  | cons r rest ih =>
    intro pos
    simp only [stringOfRunes, List.flatMap_cons]
    rw [rangeFrom_encodeRune r (h r (List.mem_cons_self _ _))]
    simp only [List.map_cons]
    congr 1
    exact ih (fun x hx => h x (List.mem_cons_of_mem _ hx)) _

theorem runes_stringOfRunes (rs : List Rune) (h : ∀ r ∈ rs, isScalar r = true) :
    runes (stringOfRunes rs) = rs :=
  rangeFrom_stringOfRunes rs h 0

theorem decodeRune_scalar (bs : List Byte) : isScalar (decodeRune bs).1 = true := by
  unfold decodeRune
  split
  · decide
  · split_ifs <;> (try split) <;> (try dsimp only) <;> (try split_ifs) <;>
      first
        | decide
        | (refine (isScalar_iff _).mpr ?_; dsimp only; omega)

theorem rangeFrom_scalar (bs : List Byte) :
    ∀ (pos skip : Nat) (p : Int × Rune), p ∈ rangeFrom pos skip bs → isScalar p.2 = true := by
  induction bs with
  | nil => intro pos skip p hp; simp [rangeFrom] at hp
  | cons b bs ih =>
    intro pos skip p hp
    cases skip with
    | succ k =>
      rw [rangeFrom] at hp
      exact ih _ _ p hp
    | zero =>
      rw [rangeFrom, List.mem_cons] at hp
      rcases hp with rfl | hp
      · exact decodeRune_scalar (b :: bs)
      · exact ih _ _ p hp

theorem runes_scalar (s : GoString) : ∀ r ∈ runes s, isScalar r = true := by
  intro r hr
  unfold runes rangeString at hr
  obtain ⟨p, hp, rfl⟩ := List.mem_map.mp hr
  exact rangeFrom_scalar s 0 0 p hp

/-- C11, as stated, fails on a string that is not well-formed UTF-8: the one-byte
string `"\xff"` decodes to the single rune `U+FFFD`, so `New("\xff").String()`
is the three bytes `EF BF BD`, not the byte `FF`. -/
theorem New_String_invalid_byte :
    (New [0xFF]).RS = [0xFFFD] ∧
    String (New [0xFF]) = [0xEF, 0xBF, 0xBD] ∧
    String (New [0xFF]) ≠ [0xFF] := by
  refine ⟨by decide, by decide, by decide⟩

/-- C11, amended: `New(s).String()` equals `s` exactly when `s` is well-formed
UTF-8, the encoding of a sequence of Unicode scalar values; on such a string
converting to runes and back is the identity. -/
theorem New_String_roundtrip (s : GoString) : String (New s) = s ↔ WellFormed s := by
  constructor
  · intro h
    exact ⟨runes s, runes_scalar s, h.symm⟩
  · rintro ⟨rs, hrs, rfl⟩
    show stringOfRunes (runes (stringOfRunes rs)) = stringOfRunes rs
    rw [runes_stringOfRunes rs hrs]

theorem New_String_roundtrip_witness :
    String (New (lit "café 日本語")) = lit "café 日本語" ∧ String (New []) = [] :=
  ⟨(New_String_roundtrip (lit "café 日本語")).mpr
      ⟨[0x63, 0x61, 0x66, 0xE9, 0x20, 0x65E5, 0x672C, 0x8A9E], by decide, by decide⟩,
   (New_String_roundtrip []).mpr ⟨[], by decide, by decide⟩⟩


end Snowballword
